import Mathlib

/-!
Verification of the concurrent artifact-discovery pipeline of relx-go
(pkg/obs/client.go) against its specification.

Modelling conventions:
* Go strings are modelled at rune level as lists of characters
  (abbrev Str).  Every character that the pipeline treats specially is
  ASCII, and UTF-8 byte order agrees with code-point order, so byte-wise
  lexicographic comparison of Go strings coincides with character-wise
  comparison of the model.
* Fallible Go calls returning (T, error) are modelled as Except Str T
  (Except Unit for filepath.Match, whose only error is ErrBadPattern).
* The external command runner is a function from (package, repository)
  to the outcome of the corresponding osc invocation.
-/

namespace Relx

abbrev Str := List Char

/-- Converts a Lean string literal to the model's string type. -/
def str (s : String) : Str := s.data

/-- Whitespace predicate of Go's unicode.IsSpace restricted to the
Latin-1 range (the only white space the pipeline can meet in practice):
space, tab, newline, vertical tab, form feed, carriage return, NEL and
NBSP. -/
def goIsSpace (c : Char) : Bool :=
  c == ' ' || c == '\t' || c == '\n' || c == Char.ofNat 11 ||
  c == Char.ofNat 12 || c == '\r' || c == Char.ofNat 133 || c == Char.ofNat 160

/-- Model of strings.TrimSpace: drop white space from both ends. -/
def trimSpace (s : Str) : Str :=
  ((s.dropWhile goIsSpace).reverse.dropWhile goIsSpace).reverse

/-- Model of strings.Split(s, "\n"): split on every newline, keeping
empty segments, with [""] for the empty string. -/
def splitOnNl : Str → List Str
  | [] => [[]]
  | c :: rest =>
    if c = '\n' then [] :: splitOnNl rest
    else
      match splitOnNl rest with
      | [] => [[c]]
      | l :: ls => (c :: l) :: ls

/-- Byte-wise lexicographic order of Go string comparison (strings
compare by bytes; UTF-8 preserves code-point order, so the rune-level
comparison below agrees with it). -/
def strLe : Str → Str → Bool
  | [], _ => true
  | _ :: _, [] => false
  | a :: as, b :: bs => if a = b then strLe as bs else decide (a.toNat < b.toNat)

/-- Model of sort.Strings: an insertion sort producing the sorted
permutation of the input under strLe (sort.Strings is specified only up
to being a sorted permutation, which is all the pipeline relies on). -/
def insertSorted (x : Str) : List Str → List Str
  | [] => [x]
  | y :: ys => if strLe x y then x :: y :: ys else y :: insertSorted x ys

/-- Model of sort.Strings, see insertSorted. -/
def sortStrings : List Str → List Str
  | [] => []
  | x :: xs => insertSorted x (sortStrings xs)

end Relx

namespace filepath

open Relx

/-- getEsc from Go's path/filepath/match.go: read a (possibly escaped)
character of a character class; a dash, a closing bracket, a trailing
backslash or an exhausted chunk is ErrBadPattern, as is a character that
ends the chunk (a class must still be closed by a bracket). -/
def getEsc : Str → Except Unit (Char × Str)
  | [] => Except.error ()
  | c :: rest =>
    if c = '-' || c = ']' then Except.error ()
    else if c = '\\' then
      match rest with
      | [] => Except.error ()
      | c2 :: rest2 => if rest2.isEmpty then Except.error () else Except.ok (c2, rest2)
    else if rest.isEmpty then Except.error () else Except.ok (c, rest)

theorem getEsc_length {s : Str} {r : Char} {t : Str}
    (h : getEsc s = Except.ok (r, t)) : t.length < s.length := by
  match s with
  | [] => simp [getEsc] at h
  | c :: rest =>
    by_cases h1 : (c = '-' || c = ']') = true
    · simp [getEsc, h1] at h
    · by_cases h2 : c = '\\'
      · match rest with
        | [] => simp [getEsc, h1, h2] at h
        | c2 :: rest2 =>
          by_cases h3 : rest2.isEmpty
          · simp [getEsc, h1, h2, h3] at h
          · simp [getEsc, h1, h2, h3] at h
            simp [← h.2]
            omega
      · by_cases h3 : rest.isEmpty
        · simp [getEsc, h1, h2, h3] at h
        · simp [getEsc, h1, h2, h3] at h
          simp [← h.2]

/-- Range-parsing loop of the bracket case of matchChunk in Go's
path/filepath/match.go: r is the character read from the name, mtch and
nrange accumulate across iterations; stops at a closing bracket once at
least one range was parsed, and returns the updated mtch together with
the chunk remainder. -/
def matchRanges (r : Char) (chunk : Str) (mtch : Bool) (nrange : Nat) :
    Except Unit (Bool × Str) :=
  if chunk.head? = some ']' ∧ nrange > 0 then Except.ok (mtch, chunk.tail)
  else
    match h2 : getEsc chunk with
    | Except.error e => Except.error e
    | Except.ok (lo, chunk1) =>
      if chunk1.head? = some '-' then
        match h4 : getEsc chunk1.tail with
        | Except.error e => Except.error e
        | Except.ok (hi, chunk2) =>
          matchRanges r chunk2 (mtch || (decide (lo ≤ r) && decide (r ≤ hi))) (nrange + 1)
      else
        matchRanges r chunk1 (mtch || (decide (lo ≤ r) && decide (r ≤ lo))) (nrange + 1)
termination_by chunk.length
decreasing_by
  · have hl1 := getEsc_length h2
    have hl2 := getEsc_length h4
    have : chunk1.tail.length ≤ chunk1.length := by simp [List.length_tail]
    omega
  · exact getEsc_length h2

theorem matchRanges_length {r : Char} (chunk : Str) (mtch : Bool) (nrange : Nat) :
    ∀ b c2, matchRanges r chunk mtch nrange = Except.ok (b, c2) →
      c2.length ≤ chunk.length := by
  induction chunk, mtch, nrange using matchRanges.induct r with
  | case1 chunk mtch nrange h1 =>
    intro b c2 hok
    rw [matchRanges, if_pos h1] at hok
    cases hok
    simp [List.length_tail]
  | case2 chunk mtch nrange h1 e h2 =>
    intro b c2 hok
    rw [matchRanges, if_neg h1] at hok
    split at hok
    · simp at hok
    · rename_i lo1 chunk11 heq
      rw [h2] at heq
      simp at heq
  | case3 chunk mtch nrange h1 lo chunk1 h2 h3 e h4 =>
    intro b c2 hok
    rw [matchRanges, if_neg h1] at hok
    split at hok
    · rename_i e1 heq
      rw [h2] at heq
      simp at heq
    · rename_i lo1 chunk11 heq
      rw [h2] at heq
      simp only [Except.ok.injEq, Prod.mk.injEq] at heq
      obtain ⟨hlo, hch⟩ := heq
      subst hlo
      subst hch
      rw [if_pos h3] at hok
      split at hok
      · simp at hok
      · rename_i hi1 chunk21 heq2
        rw [h4] at heq2
        simp at heq2
  | case4 chunk mtch nrange h1 lo chunk1 h2 h3 hi chunk2 h4 ih =>
    intro b c2 hok
    rw [matchRanges, if_neg h1] at hok
    split at hok
    · rename_i e1 heq
      rw [h2] at heq
      simp at heq
    · rename_i lo1 chunk11 heq
      rw [h2] at heq
      simp only [Except.ok.injEq, Prod.mk.injEq] at heq
      obtain ⟨hlo, hch⟩ := heq
      subst hlo
      subst hch
      rw [if_pos h3] at hok
      split at hok
      · rename_i e1 heq2
        rw [h4] at heq2
        simp at heq2
      · rename_i hi1 chunk21 heq2
        rw [h4] at heq2
        simp only [Except.ok.injEq, Prod.mk.injEq] at heq2
        obtain ⟨hhi, hch2⟩ := heq2
        subst hhi
        subst hch2
        have hrec := ih b c2 hok
        have l1 := getEsc_length h2
        have l2 := getEsc_length h4
        have l3 : chunk1.tail.length ≤ chunk1.length := by simp [List.length_tail]
        omega
  | case5 chunk mtch nrange h1 lo chunk1 h2 h3 ih =>
    intro b c2 hok
    rw [matchRanges, if_neg h1] at hok
    split at hok
    · rename_i e1 heq
      rw [h2] at heq
      simp at heq
    · rename_i lo1 chunk11 heq
      rw [h2] at heq
      simp only [Except.ok.injEq, Prod.mk.injEq] at heq
      obtain ⟨hlo, hch⟩ := heq
      subst hlo
      subst hch
      rw [if_neg h3] at hok
      have hrec := ih b c2 hok
      have l1 := getEsc_length h2
      omega

/-- One loop iteration body of matchChunk from Go's
path/filepath/match.go.  The failed flag records a mismatch discovered
while the chunk is still being consumed for syntax checking; when the
chunk is exhausted, some remainder is returned on success and none on a
plain mismatch.  Character literals, a question mark (never matching the
path separator), bracket classes with optional leading caret negation,
and backslash escapes (with a trailing backslash being ErrBadPattern)
follow the source case by case. -/
def matchChunk : Str → Str → Bool → Except Unit (Option Str)
  | [], s, failed => if failed then Except.ok none else Except.ok (some s)
  | c :: ctail, s, failed0 =>
    let failed := failed0 || s.isEmpty
    if c = '[' then
      match h5 : matchRanges (if failed then Char.ofNat 0 else s.headD (Char.ofNat 0))
          (if ctail.head? == some '^' then ctail.tail else ctail) false 0 with
      | Except.error e => Except.error e
      | Except.ok (mtch, chunk2) =>
        matchChunk chunk2 (if failed then s else s.tail)
          (failed || (mtch == (ctail.head? == some '^')))
    else if c = '?' then
      if failed then matchChunk ctail s failed
      else
        match s with
        | x :: xs => matchChunk ctail xs (x == '/')
        | [] => matchChunk ctail s failed
    else if c = '\\' then
      match ctail with
      | [] => Except.error ()
      | c2 :: ctail2 =>
        if failed then matchChunk ctail2 s failed
        else
          match s with
          | x :: xs => matchChunk ctail2 xs (c2 != x)
          | [] => matchChunk ctail2 s failed
    else
      if failed then matchChunk ctail s failed
      else
        match s with
        | x :: xs => matchChunk ctail xs (c != x)
        | [] => matchChunk ctail s failed
termination_by chunk _ _ => chunk.length
decreasing_by
  all_goals
    first
      | (have h6 := matchRanges_length _ _ _ _ _ h5
         have h8 : chunk2.length ≤ ctail.length := by
           refine le_trans h6 ?_
           split
           · exact le_trans (by simp [List.length_tail]) (Nat.le_refl _)
           · exact Nat.le_refl _
         simp only [List.length_cons]
         omega)
      | (simp only [List.length_cons]
         omega)

/-- Chunk-scanning loop of scanChunk from Go's path/filepath/match.go:
consume characters up to an unbracketed star, tracking bracket nesting
with the inrange flag, with a backslash taking the following character
verbatim. -/
def scanChunkAux : Bool → Str → Str × Str
  | _, [] => ([], [])
  | inrange, c :: rest =>
    if c = '*' && !inrange then ([], c :: rest)
    else if c = '\\' then
      match rest with
      | [] => ([c], [])
      | c2 :: rest2 =>
        let p := scanChunkAux inrange rest2
        (c :: c2 :: p.1, p.2)
    else if c = '[' then
      let p := scanChunkAux true rest
      (c :: p.1, p.2)
    else if c = ']' then
      let p := scanChunkAux false rest
      (c :: p.1, p.2)
    else
      let p := scanChunkAux inrange rest
      (c :: p.1, p.2)

/-- scanChunk from Go's path/filepath/match.go: strip leading stars
(star records whether there was one) and split the rest into the next
chunk and the remaining pattern. -/
def scanChunk (pattern : Str) : Bool × Str × Str :=
  let star := pattern.head? == some '*'
  let p := pattern.dropWhile (fun c => c == '*')
  let q := scanChunkAux false p
  (star, q.1, q.2)

theorem scanChunkAux_append (inrange : Bool) (p : Str) :
    (scanChunkAux inrange p).1 ++ (scanChunkAux inrange p).2 = p := by
  induction inrange, p using scanChunkAux.induct with
  | case1 x => simp [scanChunkAux]
  | case2 inrange c rest h =>
    conv_lhs => rw [scanChunkAux.eq_def]
    simp [h]
  | case3 inrange h =>
    conv_lhs => rw [scanChunkAux.eq_def]
    simp
  | case4 inrange c2 rest2 h ih =>
    conv_lhs => rw [scanChunkAux.eq_def]
    simp [ih]
  | case5 inrange rest h1 h2 ih =>
    conv_lhs => rw [scanChunkAux.eq_def]
    simp [ih]
  | case6 inrange rest h1 h2 h3 ih =>
    conv_lhs => rw [scanChunkAux.eq_def]
    simp [ih]
  | case7 inrange c rest h1 h2 h3 h4 ih =>
    conv_lhs => rw [scanChunkAux.eq_def]
    simp [h1, h2, h3, h4, ih]

theorem scanChunkAux_snd_le (inrange : Bool) (p : Str) :
    (scanChunkAux inrange p).2.length ≤ p.length := by
  conv_rhs => rw [← scanChunkAux_append inrange p]
  simp only [List.length_append]
  omega

theorem scanChunkAux_fst_ne_nil (c : Char) (rest : Str) (h : ¬ c = '*') :
    (scanChunkAux false (c :: rest)).1 ≠ [] := by
  cases rest with
  | nil =>
    simp only [scanChunkAux]
    split_ifs <;> simp_all
  | cons c2 rest2 =>
    simp only [scanChunkAux]
    split_ifs <;> simp_all

theorem scanChunk_rest_length (pattern : Str) (h : pattern ≠ []) :
    (scanChunk pattern).2.2.length < pattern.length := by
  match pattern with
  | c :: rest =>
    simp only [scanChunk]
    by_cases hc : c = '*'
    · have hd : List.dropWhile (fun c => c == '*') (c :: rest) =
          List.dropWhile (fun c => c == '*') rest := by
        simp [List.dropWhile_cons, hc]
      rw [hd]
      have h1 := scanChunkAux_snd_le false (List.dropWhile (fun c => c == '*') rest)
      have h2 : (List.dropWhile (fun c => c == '*') rest).length ≤ rest.length :=
        (List.dropWhile_sublist _).length_le
      simp only [List.length_cons]
      omega
    · have hd : List.dropWhile (fun c => c == '*') (c :: rest) = c :: rest := by
        simp [List.dropWhile_cons, hc]
      rw [hd]
      have happ := scanChunkAux_append false (c :: rest)
      have hne := scanChunkAux_fst_ne_nil c rest hc
      have hl : (scanChunkAux false (c :: rest)).1.length +
          (scanChunkAux false (c :: rest)).2.length = (c :: rest).length := by
        rw [← List.length_append, happ]
      have hz : (scanChunkAux false (c :: rest)).1.length ≠ 0 := by
        simpa [List.length_eq_zero] using hne
      simp only [List.length_cons] at hl ⊢
      omega

/-- Inner star loop of Match from Go's path/filepath/match.go: try to
match the chunk at every later position of the name without skipping a
path separator.  Returns some remainder when the outer loop should
continue with that remainder, none when the name is exhausted without a
match, and an error on a bad pattern. -/
def starLoop (chunk rest : Str) : Str → Except Unit (Option Str)
  | [] => Except.ok none
  | c :: s =>
    if c = '/' then Except.ok none
    else
      match matchChunk chunk s false with
      | Except.error e => Except.error e
      | Except.ok (some t) =>
        if rest.isEmpty && !t.isEmpty then starLoop chunk rest s
        else Except.ok (some t)
      | Except.ok none => starLoop chunk rest s

/-- Syntax-validation loop at the bottom of Match from Go's
path/filepath/match.go: before returning a plain false, every remaining
chunk is checked against the empty name so a bad pattern still reports
ErrBadPattern. -/
def chunksOk (pattern : Str) : Except Unit Unit :=
  if h : pattern = [] then Except.ok ()
  else
    match hsc : scanChunk pattern with
    | (_, chunk, rest) =>
      match matchChunk chunk [] false with
      | Except.error e => Except.error e
      | Except.ok _ => chunksOk rest
termination_by pattern.length
decreasing_by
  have := scanChunk_rest_length pattern h
  rw [hsc] at this
  exact this

/-- Outer pattern loop of Match from Go's path/filepath/match.go. -/
def matchLoop (pattern name : Str) : Except Unit Bool :=
  if h : pattern = [] then Except.ok name.isEmpty
  else
    match hsc : scanChunk pattern with
    | (star, chunk, rest) =>
      if star && chunk.isEmpty then Except.ok (!(name.contains '/'))
      else
        match matchChunk chunk name false with
        | Except.ok (some t) =>
          if t.isEmpty || !rest.isEmpty then matchLoop rest t
          else if star then
            match starLoop chunk rest name with
            | Except.error e => Except.error e
            | Except.ok (some t2) => matchLoop rest t2
            | Except.ok none =>
              match chunksOk rest with
              | Except.error e => Except.error e
              | Except.ok _ => Except.ok false
          else
            match chunksOk rest with
            | Except.error e => Except.error e
            | Except.ok _ => Except.ok false
        | Except.error e => Except.error e
        | Except.ok none =>
          if star then
            match starLoop chunk rest name with
            | Except.error e => Except.error e
            | Except.ok (some t2) => matchLoop rest t2
            | Except.ok none =>
              match chunksOk rest with
              | Except.error e => Except.error e
              | Except.ok _ => Except.ok false
          else
            match chunksOk rest with
            | Except.error e => Except.error e
            | Except.ok _ => Except.ok false
termination_by pattern.length
decreasing_by
  all_goals
    have := scanChunk_rest_length pattern h
    rw [hsc] at this
    exact this

/-- Match from Go's path/filepath/match.go, the shell glob matcher used
by the pipeline for both package and binary filtering; an Except.error
models ErrBadPattern. -/
def Match (pattern name : Str) : Except Unit Bool :=
  matchLoop pattern name

end filepath

namespace Relx

/-- PackageFilter from pkg/config/config.go: a glob pattern paired with
the repository to target for packages matching it. -/
structure PackageFilter where
  pattern : Str
  repository : Str

/-- The slice of the Config structure (pkg/config/config.go) that
ListArtifacts consumes: the ordered package filter rules and the ordered
binary filter patterns. -/
structure Config where
  packageFilterPatterns : List PackageFilter
  binaryFilterPatterns : List Str

/-- maxConcurrentOscCalls from pkg/obs/client.go: capacity of the
semaphore channel bounding concurrent osc invocations. -/
def maxConcurrentOscCalls : Nat := 10

/-- Inner loop of Step 2 of ListArtifacts (pkg/obs/client.go): evaluate
the filter rules in declaration order for one package; an invalid
pattern is logged as a warning and skipped (continue), and the first
match wins (break). -/
def findRepo (rules : List PackageFilter) (pkg : Str) : Option Str :=
  match rules with
  | [] => none
  | r :: rs =>
    match filepath.Match r.pattern pkg with
    | Except.error _ => findRepo rs pkg
    | Except.ok true => some r.repository
    | Except.ok false => findRepo rs pkg

/-- Go map assignment m[k] = v on an association-list model of the map:
update in place when the key exists, append otherwise. -/
def insertAssoc (m : List (Str × Str)) (k v : Str) : List (Str × Str) :=
  match m with
  | [] => [(k, v)]
  | (k0, v0) :: rest =>
    if k0 = k then (k, v) :: rest else (k0, v0) :: insertAssoc rest k v

/-- Step 2 of ListArtifacts (pkg/obs/client.go): build the
package-to-repository map from the full package list; with no rules
configured the map deliberately stays empty. -/
def filterPackages (rules : List PackageFilter) (packages : List Str) :
    List (Str × Str) :=
  if rules.isEmpty then []
  else
    packages.foldl (fun m pkg =>
      match findRepo rules pkg with
      | some repo => insertAssoc m pkg repo
      | none => m) []

/-- Line filter of listBinariesForPackage (pkg/obs/client.go): keep the
indented lines that are not underscore entries. -/
def keepLine (b : Str) : Bool :=
  (List.isPrefixOf (str " ") b) && !(List.isPrefixOf (str " _") b)

/-- Go map-as-set insertion: add the element unless already present.
Insertion order stands in for Go's unspecified map iteration order;
everything downstream is either order-invariant or sorted. -/
def insertSet (l : List Str) (x : Str) : List Str :=
  if x ∈ l then l else l ++ [x]

/-- Parsing part of listBinariesForPackage (pkg/obs/client.go): split
the raw osc output on newlines, keep indented non-underscore lines,
trim them, and deduplicate them via a set. -/
def cleanBinaries (out : Str) : List Str :=
  (splitOnNl out).foldl
    (fun acc b => if keepLine b then insertSet acc (trimSpace b) else acc) []

/-- listBinariesForPackage (pkg/obs/client.go) applied to the outcome of
the osc run for one (package, repository) pair; a failed run carries the
error text and the partial output, folded into the wrapped message the
way fmt.Errorf renders them. -/
def listBinariesForPackage (run : Except (Str × Str) Str) (pkg : Str) :
    Except Str (List Str) :=
  match run with
  | Except.error eo =>
    Except.error (str "failed to run \x27osc ls -b\x27 for package \x27" ++ pkg ++
      str "\x27: " ++ eo.1 ++ str ". Output: " ++ eo.2)
  | Except.ok out => Except.ok (cleanBinaries out)

/-- What a single Step 3 goroutine of ListArtifacts publishes for one
(package, repository) entry: a wrapped error on the error channel or
the package's binary list on the results channel. -/
def taskOutcome (runner : Str → Str → Except (Str × Str) Str)
    (entry : Str × Str) : Except Str (List Str) :=
  match listBinariesForPackage (runner entry.1 entry.2) entry.1 with
  | Except.error e =>
    Except.error (str "failed to list binaries for package \x27" ++ entry.1 ++
      str "\x27: " ++ e)
  | Except.ok bins => Except.ok bins

/-- Error channel contents: the errors, in completion order. -/
def errTexts (outcomes : List (Except Str (List Str))) : List Str :=
  outcomes.filterMap fun o =>
    match o with
    | Except.error e => some e
    | Except.ok _ => none

/-- Results channel contents: the successful lists, in completion
order. -/
def okLists (outcomes : List (Except Str (List Str))) : List (List Str) :=
  outcomes.filterMap fun o =>
    match o with
    | Except.ok l => some l
    | Except.error _ => none

/-- Rendering of the %v verb of fmt.Errorf on the collected error
slice: the element messages separated by single spaces (the surrounding
brackets are added at the call site). -/
def joinSpace : List Str → Str
  | [] => []
  | x :: xs =>
    match xs with
    | [] => x
    | _ :: _ => x ++ (' ' :: joinSpace xs)

/-- Inner loop of Step 4 of ListArtifacts (pkg/obs/client.go): the
first matching binary filter pattern keeps the binary (break); invalid
patterns are logged as warnings and skipped (continue). -/
def matchAnyBinary (patterns : List Str) (binary : Str) : Bool :=
  match patterns with
  | [] => false
  | p :: ps =>
    match filepath.Match p binary with
    | Except.ok true => true
    | Except.ok false => matchAnyBinary ps binary
    | Except.error _ => matchAnyBinary ps binary

/-- Step 4 of ListArtifacts (pkg/obs/client.go): with no binary filter
patterns configured everything is kept; either way the result is
sorted. -/
def finalFilter (patterns : List Str) (allBinaries : List Str) : List Str :=
  if patterns.isEmpty then sortStrings allBinaries
  else sortStrings (allBinaries.filter (fun b => matchAnyBinary patterns b))

/-- ListArtifacts from pkg/obs/client.go as a function of the
pipeline's three effectful inputs: the outcome of listPackages, the
runner behind listBinariesForPackage, and the order in which the Step 3
goroutines complete (results and errors are drained from the two
buffered channels in completion order; theorems quantify over every
completion order that is a permutation of the filtered package map).
Go's (nil, err) returns are Except.error and (list, nil) returns are
Except.ok. -/
def ListArtifactsSched (cfg : Config) (project : Str)
    (pkgsResult : Except Str (List Str))
    (runner : Str → Str → Except (Str × Str) Str)
    (order : List (Str × Str)) : Except Str (List Str) :=
  match pkgsResult with
  | Except.error e =>
    Except.error (str "failed to list packages for project " ++ project ++
      str ": " ++ e)
  | Except.ok packages =>
    let filtered := filterPackages cfg.packageFilterPatterns packages
    if filtered.isEmpty then Except.ok []
    else
      let outcomes := order.map (taskOutcome runner)
      let errs := errTexts outcomes
      if errs.isEmpty then
        Except.ok (finalFilter cfg.binaryFilterPatterns (okLists outcomes).flatten)
      else
        Except.error (str "multiple errors occurred while listing binaries: [" ++
          joinSpace errs ++ str "]")

/-- ListArtifacts run with the canonical completion order, the filtered
map's own order. -/
def ListArtifacts (cfg : Config) (project : Str)
    (pkgsResult : Except Str (List Str))
    (runner : Str → Str → Except (Str × Str) Str) : Except Str (List Str) :=
  ListArtifactsSched cfg project pkgsResult runner
    (match pkgsResult with
     | Except.ok packages => filterPackages cfg.packageFilterPatterns packages
     | Except.error _ => [])

theorem char_toNat_inj {a b : Char} (h : a.toNat = b.toNat) : a = b :=
  Char.ext (UInt32.ext h)

theorem strLe_total (a : Str) : ∀ b, strLe a b = true ∨ strLe b a = true := by
  induction a with
  | nil => intro b; left; rfl
  | cons x xs ih =>
    intro b
    cases b with
    | nil => right; rfl
    | cons y ys =>
      by_cases hxy : x = y
      · subst hxy
        simp only [strLe, if_pos rfl]
        exact ih ys
      · have hne : ¬ x.toNat = y.toNat := fun h => hxy (char_toNat_inj h)
        have hyx : ¬ y = x := fun h => hxy h.symm
        simp only [strLe, if_neg hxy, if_neg hyx]
        rcases Nat.lt_or_ge x.toNat y.toNat with hlt | hge
        · left
          simpa using hlt
        · right
          simp only [decide_eq_true_eq]
          omega

theorem strLe_trans {a : Str} : ∀ {b c : Str},
    strLe a b = true → strLe b c = true → strLe a c = true := by
  induction a with
  | nil => intro b c _ _; rfl
  | cons x xs ih =>
    intro b c hab hbc
    cases b with
    | nil => simp [strLe] at hab
    | cons y ys =>
      cases c with
      | nil => simp [strLe] at hbc
      | cons z zs =>
        by_cases hxy : x = y <;> by_cases hyz : y = z
        · subst hxy; subst hyz
          simp only [strLe, if_pos rfl] at hab hbc ⊢
          exact ih hab hbc
        · subst hxy
          simp only [strLe, if_pos rfl, if_neg hyz] at hab hbc ⊢
          simpa using hbc
        · subst hyz
          simp only [strLe, if_pos rfl, if_neg hxy] at hab hbc ⊢
          simpa using hab
        · simp only [strLe, if_neg hxy, if_neg hyz, decide_eq_true_eq] at hab hbc
          have hxz : ¬ x = z := by
            intro h
            subst h
            omega
          simp only [strLe, if_neg hxz, decide_eq_true_eq]
          omega

theorem strLe_antisymm {a : Str} : ∀ {b : Str},
    strLe a b = true → strLe b a = true → a = b := by
  induction a with
  | nil =>
    intro b _ hba
    cases b with
    | nil => rfl
    | cons y ys => simp [strLe] at hba
  | cons x xs ih =>
    intro b hab hba
    cases b with
    | nil => simp [strLe] at hab
    | cons y ys =>
      by_cases hxy : x = y
      · subst hxy
        simp only [strLe, if_pos rfl] at hab hba
        rw [ih hab hba]
      · have hyx : ¬ y = x := fun h => hxy h.symm
        simp only [strLe, if_neg hxy, if_neg hyx, decide_eq_true_eq] at hab hba
        omega

instance : IsAntisymm Str (fun a b => strLe a b = true) :=
  ⟨fun _ _ => strLe_antisymm⟩

theorem insertSorted_perm (x : Str) (l : List Str) :
    (insertSorted x l).Perm (x :: l) := by
  induction l with
  | nil => simp [insertSorted]
  | cons y ys ih =>
    simp only [insertSorted]
    split
    · exact List.Perm.refl _
    · exact (ih.cons y).trans (List.Perm.swap x y ys)

theorem sortStrings_perm (l : List Str) : (sortStrings l).Perm l := by
  induction l with
  | nil => simp [sortStrings]
  | cons x xs ih => exact (insertSorted_perm x (sortStrings xs)).trans (ih.cons x)

theorem insertSorted_pairwise {x : Str} {l : List Str}
    (h : l.Pairwise (fun a b => strLe a b = true)) :
    (insertSorted x l).Pairwise (fun a b => strLe a b = true) := by
  induction l with
  | nil => simp [insertSorted]
  | cons y ys ih =>
    rcases List.pairwise_cons.mp h with ⟨hy, hys⟩
    simp only [insertSorted]
    split
    · rename_i hxy
      refine List.pairwise_cons.mpr ⟨?_, h⟩
      intro z hz
      rcases List.mem_cons.mp hz with rfl | hz2
      · exact hxy
      · exact strLe_trans hxy (hy z hz2)
    · rename_i hxy
      have hyx : strLe y x = true := (strLe_total x y).resolve_left hxy
      refine List.pairwise_cons.mpr ⟨?_, ih hys⟩
      intro z hz
      have hz2 : z = x ∨ z ∈ ys := by
        have hmem := (insertSorted_perm x ys).mem_iff.mp hz
        simpa using hmem
      rcases hz2 with rfl | hz2
      · exact hyx
      · exact hy z hz2

theorem sortStrings_pairwise (l : List Str) :
    (sortStrings l).Pairwise (fun a b => strLe a b = true) := by
  induction l with
  | nil => simp [sortStrings]
  | cons x xs ih => exact insertSorted_pairwise ih

theorem sortStrings_eq_of_perm {l1 l2 : List Str} (h : l1.Perm l2) :
    sortStrings l1 = sortStrings l2 :=
  List.eq_of_perm_of_sorted
    ((sortStrings_perm l1).trans (h.trans (sortStrings_perm l2).symm))
    (sortStrings_pairwise l1) (sortStrings_pairwise l2)

theorem finalFilter_pairwise (patterns : List Str) (bins : List Str) :
    (finalFilter patterns bins).Pairwise (fun a b => strLe a b = true) := by
  simp only [finalFilter]
  split
  · exact sortStrings_pairwise bins
  · exact sortStrings_pairwise _

theorem mem_insertSet {l : List Str} {x z : Str} :
    z ∈ insertSet l x ↔ z ∈ l ∨ z = x := by
  simp only [insertSet]
  split
  · rename_i hmem
    constructor
    · exact Or.inl
    · rintro (hz | rfl)
      · exact hz
      · exact hmem
  · simp [List.mem_append]

theorem insertSet_nodup {l : List Str} (h : l.Nodup) (x : Str) :
    (insertSet l x).Nodup := by
  simp only [insertSet]
  split
  · exact h
  · rename_i hmem
    simp [List.nodup_append, h, hmem]

theorem cleanBinaries_fold_nodup (lines : List Str) :
    ∀ acc : List Str, acc.Nodup →
      (lines.foldl
        (fun acc b => if keepLine b then insertSet acc (trimSpace b) else acc)
        acc).Nodup := by
  induction lines with
  | nil => intro acc h; simpa using h
  | cons b bs ih =>
    intro acc h
    simp only [List.foldl_cons]
    by_cases hk : keepLine b = true
    · rw [if_pos hk]
      exact ih _ (insertSet_nodup h _)
    · rw [if_neg hk]
      exact ih _ h

theorem cleanBinaries_fold_mem (lines : List Str) :
    ∀ (acc : List Str) (s : Str),
      s ∈ lines.foldl
          (fun acc b => if keepLine b then insertSet acc (trimSpace b) else acc)
          acc ↔
        s ∈ acc ∨ ∃ b, b ∈ lines ∧ keepLine b = true ∧ s = trimSpace b := by
  induction lines with
  | nil => intro acc s; simp
  | cons b bs ih =>
    intro acc s
    simp only [List.foldl_cons]
    by_cases hk : keepLine b = true
    · rw [if_pos hk]
      rw [ih]
      simp only [mem_insertSet, List.mem_cons]
      constructor
      · rintro ((hs | rfl) | ⟨b2, hb2, hkb2, rfl⟩)
        · exact Or.inl hs
        · exact Or.inr ⟨b, Or.inl rfl, hk, rfl⟩
        · exact Or.inr ⟨b2, Or.inr hb2, hkb2, rfl⟩
      · rintro (hs | ⟨b2, (rfl | hb2), hkb2, rfl⟩)
        · exact Or.inl (Or.inl hs)
        · exact Or.inl (Or.inr rfl)
        · exact Or.inr ⟨b2, hb2, hkb2, rfl⟩
    · rw [if_neg hk]
      rw [ih]
      simp only [List.mem_cons]
      constructor
      · rintro (hs | ⟨b2, hb2, hkb2, rfl⟩)
        · exact Or.inl hs
        · exact Or.inr ⟨b2, Or.inr hb2, hkb2, rfl⟩
      · rintro (hs | ⟨b2, (rfl | hb2), hkb2, rfl⟩)
        · exact Or.inl hs
        · exact absurd hkb2 hk
        · exact Or.inr ⟨b2, hb2, hkb2, rfl⟩

theorem cleanBinaries_nodup (out : Str) : (cleanBinaries out).Nodup :=
  cleanBinaries_fold_nodup (splitOnNl out) [] List.nodup_nil

theorem mem_cleanBinaries {out : Str} {s : Str} :
    s ∈ cleanBinaries out ↔
      ∃ b, b ∈ splitOnNl out ∧ keepLine b = true ∧ s = trimSpace b := by
  rw [cleanBinaries, cleanBinaries_fold_mem]
  simp

theorem insertAssoc_keys_mem {m : List (Str × Str)} {k v z : Str} :
    z ∈ (insertAssoc m k v).map Prod.fst ↔ z ∈ m.map Prod.fst ∨ z = k := by
  induction m with
  | nil => simp [insertAssoc]
  | cons kv rest ih =>
    obtain ⟨k0, v0⟩ := kv
    simp only [insertAssoc]
    split
    · rename_i heq
      subst heq
      simp only [List.map_cons, List.mem_cons]
      tauto
    · simp only [List.map_cons, List.mem_cons, ih]
      tauto

theorem insertAssoc_keys_nodup {m : List (Str × Str)}
    (h : (m.map Prod.fst).Nodup) (k v : Str) :
    ((insertAssoc m k v).map Prod.fst).Nodup := by
  induction m with
  | nil => simp [insertAssoc]
  | cons kv rest ih =>
    obtain ⟨k0, v0⟩ := kv
    simp only [List.map_cons, List.nodup_cons] at h
    obtain ⟨hk0, hrest⟩ := h
    simp only [insertAssoc]
    split
    · rename_i heq
      subst heq
      simp only [List.map_cons, List.nodup_cons]
      exact ⟨hk0, hrest⟩
    · rename_i hne
      simp only [List.map_cons, List.nodup_cons, insertAssoc_keys_mem]
      refine ⟨?_, ih hrest⟩
      rintro (hmem | rfl)
      · exact hk0 hmem
      · exact hne rfl

theorem filterPackages_fold_keys_nodup (rules : List PackageFilter)
    (packages : List Str) :
    ∀ acc : List (Str × Str), (acc.map Prod.fst).Nodup →
      ((packages.foldl (fun m pkg =>
        match findRepo rules pkg with
        | some repo => insertAssoc m pkg repo
        | none => m) acc).map Prod.fst).Nodup := by
  induction packages with
  | nil => intro acc h; simpa using h
  | cons q qs ih =>
    intro acc h
    simp only [List.foldl_cons]
    cases hfr : findRepo rules q with
    | none => simpa [hfr] using ih acc h
    | some repo => simpa [hfr] using ih _ (insertAssoc_keys_nodup h q repo)

theorem filterPackages_keys_nodup (rules : List PackageFilter)
    (packages : List Str) :
    ((filterPackages rules packages).map Prod.fst).Nodup := by
  rw [filterPackages]
  split
  · simp
  · exact filterPackages_fold_keys_nodup rules packages [] (by simp)

theorem filterPackages_fold_not_mem {rules : List PackageFilter} {pkg : Str}
    (hnone : findRepo rules pkg = none) (packages : List Str) :
    ∀ acc : List (Str × Str), pkg ∉ acc.map Prod.fst →
      pkg ∉ (packages.foldl (fun m q =>
        match findRepo rules q with
        | some repo => insertAssoc m q repo
        | none => m) acc).map Prod.fst := by
  induction packages with
  | nil => intro acc h; simpa using h
  | cons q qs ih =>
    intro acc h
    simp only [List.foldl_cons]
    cases hfr : findRepo rules q with
    | none => simpa [hfr] using ih acc h
    | some repo =>
      simp only [hfr]
      refine ih _ ?_
      rw [insertAssoc_keys_mem]
      rintro (hmem | rfl)
      · exact h hmem
      · rw [hnone] at hfr
        cases hfr

theorem mem_joinSpace_isInfix {x : Str} {l : List Str} (h : x ∈ l) :
    x.IsInfix (joinSpace l) := by
  induction l with
  | nil => simp at h
  | cons y ys ih =>
    rcases List.mem_cons.mp h with rfl | hx
    · cases ys with
      | nil => exact List.infix_refl x
      | cons z zs =>
        refine ⟨[], ' ' :: joinSpace (z :: zs), ?_⟩
        have hj : joinSpace (x :: z :: zs) = x ++ ' ' :: joinSpace (z :: zs) := rfl
        rw [hj]
        simp
    · cases ys with
      | nil => simp at hx
      | cons z zs =>
        obtain ⟨s, t, hst⟩ := ih hx
        refine ⟨y ++ ' ' :: s, t, ?_⟩
        have hj : joinSpace (y :: z :: zs) = y ++ ' ' :: joinSpace (z :: zs) := rfl
        rw [hj, ← hst]
        simp

theorem mem_errTexts {runner : Str → Str → Except (Str × Str) Str}
    {order : List (Str × Str)} {e : Str × Str} {t : Str} (he : e ∈ order)
    (ht : taskOutcome runner e = Except.error t) :
    t ∈ errTexts (order.map (taskOutcome runner)) := by
  rw [errTexts, List.mem_filterMap]
  exact ⟨taskOutcome runner e, List.mem_map_of_mem _ he, by rw [ht]⟩

/-- Phase of one Step 3 task of ListArtifacts with respect to the
semaphore channel sem: waiting (before the send on sem), holding a slot
(between the send on sem and the deferred receive; the whole
listBinariesForPackage invocation of the task happens inside this
phase), or finished (slot given back). -/
inductive TaskPhase
  | waiting
  | holding
  | finished
deriving DecidableEq

/-- Number of semaphore slots currently taken, one per task in the
holding phase. -/
def holdingCount (s : List TaskPhase) : Nat :=
  s.countP (fun p => p == TaskPhase.holding)

/-- Interleaving semantics of the Step 3 loop of ListArtifacts
(pkg/obs/client.go): a step either completes the send on the sem
channel for a waiting task, which the channel of capacity
maxConcurrentOscCalls allows only while fewer than that many slots are
taken, or performs the deferred receive of a holding task, freeing its
slot.  The state lists the phase of every scheduled task. -/
inductive SemStep : List TaskPhase → List TaskPhase → Prop
  | acquire (l r : List TaskPhase)
      (hfree : holdingCount (l ++ TaskPhase.waiting :: r) < maxConcurrentOscCalls) :
      SemStep (l ++ TaskPhase.waiting :: r) (l ++ TaskPhase.holding :: r)
  | release (l r : List TaskPhase) :
      SemStep (l ++ TaskPhase.holding :: r) (l ++ TaskPhase.finished :: r)

/-- States reachable from the start of Step 3 of ListArtifacts, where
the n scheduled tasks all still wait for the semaphore. -/
inductive SemReachable : List TaskPhase → Prop
  | init (n : Nat) : SemReachable (List.replicate n TaskPhase.waiting)
  | step {s t : List TaskPhase} :
      SemReachable s → SemStep s t → SemReachable t

theorem holdingCount_append (l r : List TaskPhase) :
    holdingCount (l ++ r) = holdingCount l + holdingCount r := by
  simp [holdingCount, List.countP_append]

theorem holdingCount_cons (p : TaskPhase) (r : List TaskPhase) :
    holdingCount (p :: r) =
      (if p = TaskPhase.holding then 1 else 0) + holdingCount r := by
  simp only [holdingCount, List.countP_cons]
  rcases p <;> simp <;> omega

theorem isInfix_within_append {x m : Str} (P S : Str) (h : x.IsInfix m) :
    x.IsInfix (P ++ m ++ S) := by
  obtain ⟨s, t, hst⟩ := h
  refine ⟨P ++ s, t ++ S, ?_⟩
  rw [← hst]
  simp

/-- C2: with no package filter rules configured, ListArtifacts returns
an empty artifact list and no error, for every project, every
successfully listed package set, every runner (so no binary-listing
lookup can influence the result) and every task schedule. -/
theorem C2_empty_rules (cfg : Config) (project : Str) (packages : List Str)
    (runner : Str → Str → Except (Str × Str) Str) (order : List (Str × Str))
    (hrules : cfg.packageFilterPatterns = []) :
    ListArtifactsSched cfg project (Except.ok packages) runner order =
      Except.ok [] := by
  simp [ListArtifactsSched, filterPackages, hrules]

/-- Witness for C2 at a concrete configuration whose runner always
fails, showing the runner is never consulted. -/
theorem C2_empty_rules_witness :
    ListArtifactsSched { packageFilterPatterns := [], binaryFilterPatterns := [] }
      (str "P") (Except.ok [str "a"])
      (fun _ _ => Except.error (str "boom", str "")) [] = Except.ok [] :=
  C2_empty_rules _ _ _ _ _ rfl

/-- C5: the package filter evaluates rules in declaration order — the
first rule whose pattern matches decides the repository and later rules
are not consulted, while a non-matching head rule defers to the
remaining rules; a package matching no rule never enters the filtered
map (dropped silently, the filter being a total function); and the
filtered map's keys are distinct, so every package is mapped to at most
one repository and processed at most once. -/
theorem C5_package_filter (rules : List PackageFilter) (packages : List Str) :
    (∀ (r : PackageFilter) (rs : List PackageFilter) (pkg : Str),
        filepath.Match r.pattern pkg = Except.ok true →
        findRepo (r :: rs) pkg = some r.repository) ∧
    (∀ (r : PackageFilter) (rs : List PackageFilter) (pkg : Str),
        filepath.Match r.pattern pkg = Except.ok false →
        findRepo (r :: rs) pkg = findRepo rs pkg) ∧
    (∀ pkg, findRepo rules pkg = none →
        pkg ∉ (filterPackages rules packages).map Prod.fst) ∧
    ((filterPackages rules packages).map Prod.fst).Nodup := by
  refine ⟨?_, ?_, ?_, filterPackages_keys_nodup rules packages⟩
  · intro r rs pkg hm
    simp [findRepo, hm]
  · intro r rs pkg hm
    simp [findRepo, hm]
  · intro pkg hnone
    rw [filterPackages]
    split
    · simp
    · exact filterPackages_fold_not_mem hnone packages [] (by simp)

/-- Witness for C5: the first of two overlapping rules wins for a
matching package. -/
theorem C5_package_filter_witness :
    findRepo [{ pattern := str "pkg_a*", repository := str "repoX" },
        { pattern := str "*", repository := str "repoY" }] (str "pkg_a1") =
      some (str "repoX") :=
  (C5_package_filter [] []).1
    { pattern := str "pkg_a*", repository := str "repoX" }
    [{ pattern := str "*", repository := str "repoY" }] (str "pkg_a1")
    (by simp [filepath.Match, filepath.matchLoop, filepath.matchChunk,
      filepath.scanChunk, filepath.scanChunkAux, filepath.starLoop,
      filepath.chunksOk, str])

/-- C6: when the package-listing step fails, ListArtifacts returns an
error wrapping the underlying failure with the project identity, with a
nil artifact list; the result does not depend on the runner or on any
task schedule, because the failure aborts the pipeline before Step 3
starts. -/
theorem C6_listPackages_failure (cfg : Config) (project e : Str)
    (runner : Str → Str → Except (Str × Str) Str) (order : List (Str × Str)) :
    ListArtifactsSched cfg project (Except.error e) runner order =
      Except.error (str "failed to list packages for project " ++ project ++
        str ": " ++ e) := rfl

/-- C7: a pattern on which the glob matcher reports an error is treated
as a non-match for the name under test, both in package filtering
(where the offending rule is skipped and evaluation continues with the
remaining rules) and in binary filtering, leaving the rest of the run
unaffected beyond that non-match. -/
theorem C7_invalid_pattern_skipped (p repo name : Str)
    (rules : List PackageFilter) (pats : List Str) (e : Unit)
    (hbad : filepath.Match p name = Except.error e) :
    findRepo ({ pattern := p, repository := repo } :: rules) name =
        findRepo rules name ∧
      matchAnyBinary (p :: pats) name = matchAnyBinary pats name := by
  constructor
  · simp [findRepo, hbad]
  · simp [matchAnyBinary, hbad]

/-- Witness for C7 with the invalid pattern consisting of a lone
backslash. -/
theorem C7_invalid_pattern_skipped_witness :
    findRepo [{ pattern := str "\\", repository := str "r" },
        { pattern := str "a*", repository := str "s" }] (str "a") =
        findRepo [{ pattern := str "a*", repository := str "s" }] (str "a") ∧
      matchAnyBinary [str "\\"] (str "a") = matchAnyBinary [] (str "a") :=
  C7_invalid_pattern_skipped (str "\\") (str "r") (str "a")
    [{ pattern := str "a*", repository := str "s" }] [] ()
    (by simp [filepath.Match, filepath.matchLoop, filepath.matchChunk,
      filepath.scanChunk, filepath.scanChunkAux, str])

/-- C8: in every state reachable under the Step 3 semaphore discipline,
at most maxConcurrentOscCalls (10) tasks hold a semaphore slot
simultaneously; since a task invokes the binary lister only while
holding its slot (acquired before the call, released by the deferred
receive afterwards), never more than 10 binary-lister invocations are
in flight at once. -/
theorem C8_semaphore_bound {s : List TaskPhase} (h : SemReachable s) :
    holdingCount s ≤ maxConcurrentOscCalls := by
  induction h with
  | init n =>
    simp [holdingCount, List.countP_replicate, maxConcurrentOscCalls]
  | step hr hstep ih =>
    cases hstep with
    | acquire l r hfree =>
      rw [holdingCount_append, holdingCount_cons] at *
      simp only [maxConcurrentOscCalls] at *
      simp at hfree ⊢
      omega
    | release l r =>
      rw [holdingCount_append, holdingCount_cons] at *
      simp only [maxConcurrentOscCalls] at *
      simp at ih ⊢
      omega

/-- Witness for C8: a concrete reachable state in which one task holds
the semaphore. -/
theorem C8_semaphore_bound_witness :
    holdingCount [TaskPhase.holding] ≤ maxConcurrentOscCalls :=
  C8_semaphore_bound
    (SemReachable.step (SemReachable.init 1)
      (SemStep.acquire [] [] (by decide)))

/-- C10: listBinariesForPackage returns exactly the whitespace-trimmed
forms of the raw output lines that begin with a space but not with a
space followed by an underscore — so top-level header lines and
underscore entries never appear — and the list returned for the single
package contains no duplicates. -/
theorem C10_clean_lines (out : Str) :
    (cleanBinaries out).Nodup ∧
      ∀ s, s ∈ cleanBinaries out ↔
        ∃ b, b ∈ splitOnNl out ∧ List.isPrefixOf (str " ") b = true ∧
          List.isPrefixOf (str " _") b = false ∧ s = trimSpace b := by
  refine ⟨cleanBinaries_nodup out, fun s => ?_⟩
  rw [mem_cleanBinaries]
  constructor
  · rintro ⟨b, hb, hk, rfl⟩
    simp only [keepLine, Bool.and_eq_true, Bool.not_eq_true'] at hk
    exact ⟨b, hb, hk.1, hk.2, rfl⟩
  · rintro ⟨b, hb, h1, h2, rfl⟩
    refine ⟨b, hb, ?_, rfl⟩
    simp [keepLine, h1, h2]

/-- Witness for C10: of three raw lines, only the indented
non-underscore one survives, trimmed. -/
theorem C10_clean_lines_witness :
    str "x" ∈ cleanBinaries (str " x\ntop\n _meta") :=
  ((C10_clean_lines (str " x\ntop\n _meta")).2 (str "x")).mpr
    ⟨str " x", by decide, by decide, by decide, by decide⟩

/-- C1: if any scheduled binary-listing task fails, ListArtifacts
returns a single aggregate error in place of an artifact list, and the
aggregate message contains, for every failed package, the wrapped text
naming that package together with its underlying error text; the
results of tasks that succeeded in the same run are discarded.  The
theorem quantifies over every completion order that is a permutation of
the filtered package map. -/
theorem C1_fail_together (cfg : Config) (project : Str) (packages : List Str)
    (runner : Str → Str → Except (Str × Str) Str) (order : List (Str × Str))
    (hperm : order.Perm (filterPackages cfg.packageFilterPatterns packages))
    (e0 : Str × Str) (he0 : e0 ∈ order) (t0 : Str)
    (ht0 : taskOutcome runner e0 = Except.error t0) :
    ∃ msg, ListArtifactsSched cfg project (Except.ok packages) runner order =
        Except.error msg ∧
      ∀ e ∈ order, ∀ u, listBinariesForPackage (runner e.1 e.2) e.1 =
          Except.error u →
        (str "failed to list binaries for package \x27" ++ e.1 ++
          str "\x27: " ++ u).IsInfix msg := by
  have hone : order ≠ [] := List.ne_nil_of_mem he0
  have hne : ¬ (filterPackages cfg.packageFilterPatterns packages).isEmpty = true := by
    intro hemp
    rw [List.isEmpty_iff] at hemp
    rw [hemp] at hperm
    exact hone hperm.eq_nil
  have hmem0 := mem_errTexts he0 ht0
  have herrne : ¬ (errTexts (order.map (taskOutcome runner))).isEmpty = true := by
    intro hemp
    rw [List.isEmpty_iff] at hemp
    rw [hemp] at hmem0
    simp at hmem0
  simp only [ListArtifactsSched]
  rw [if_neg hne, if_neg herrne]
  refine ⟨_, rfl, ?_⟩
  intro e he u hu
  have htask : taskOutcome runner e =
      Except.error (str "failed to list binaries for package \x27" ++ e.1 ++
        str "\x27: " ++ u) := by
    rw [taskOutcome, hu]
  exact isInfix_within_append _ _ (mem_joinSpace_isInfix (mem_errTexts he htask))

/-- Configuration with one catch-all rule for packages named a…,
repository r, and no binary filter; used by concrete scenarios. -/
def cfgDup : Config :=
  { packageFilterPatterns := [{ pattern := str "a*", repository := str "r" }],
    binaryFilterPatterns := [] }

/-- Runner whose osc output lists the single binary x for every
package. -/
def runnerDup : Str → Str → Except (Str × Str) Str :=
  fun _ _ => Except.ok (str " x\n")

/-- Runner that fails for package a1 and lists the binary x
otherwise. -/
def runnerFail : Str → Str → Except (Str × Str) Str :=
  fun pkg _ =>
    if pkg = str "a1" then Except.error (str "boom", str "out")
    else Except.ok (str " x\n")

/-- Witness for C1 at a concrete run with one failing and one
succeeding task. -/
theorem C1_fail_together_witness :
    ∃ msg, ListArtifactsSched cfgDup (str "P")
        (Except.ok [str "a1", str "a2"]) runnerFail
        [(str "a1", str "r"), (str "a2", str "r")] = Except.error msg ∧
      ∀ e ∈ [(str "a1", str "r"), (str "a2", str "r")], ∀ u,
        listBinariesForPackage (runnerFail e.1 e.2) e.1 = Except.error u →
        (str "failed to list binaries for package \x27" ++ e.1 ++
          str "\x27: " ++ u).IsInfix msg := by
  have hfp : filterPackages cfgDup.packageFilterPatterns [str "a1", str "a2"] =
      [(str "a1", str "r"), (str "a2", str "r")] := by
    simp [filterPackages, findRepo, cfgDup, insertAssoc, filepath.Match,
      filepath.matchLoop, filepath.matchChunk, filepath.scanChunk,
      filepath.scanChunkAux, filepath.starLoop, filepath.chunksOk, str]
  refine C1_fail_together cfgDup (str "P") [str "a1", str "a2"] runnerFail
    [(str "a1", str "r"), (str "a2", str "r")] ?_ (str "a1", str "r")
    (by simp)
    (str "failed to list binaries for package \x27a1\x27: failed to run \x27osc ls -b\x27 for package \x27a1\x27: boom. Output: out")
    ?_
  · rw [hfp]
  · simp [taskOutcome, listBinariesForPackage, runnerFail, str]

/-- C3 counterexample: with two filtered packages whose binary lists
both contain the artifact name x and no binary filter configured, the
successful result of ListArtifacts is the sorted list with x twice, so
the returned artifact list is not free of duplicates. -/
theorem C3_counterexample :
    ListArtifacts cfgDup (str "P") (Except.ok [str "a1", str "a2"]) runnerDup =
        Except.ok [str "x", str "x"] ∧
      ¬ ([str "x", str "x"] : List Str).Nodup := by
  constructor
  · simp [ListArtifacts, ListArtifactsSched, cfgDup, runnerDup, filterPackages,
      findRepo, insertAssoc, taskOutcome, listBinariesForPackage, cleanBinaries,
      splitOnNl, keepLine, insertSet, trimSpace, goIsSpace, errTexts, okLists,
      finalFilter, matchAnyBinary, sortStrings, insertSorted, strLe, joinSpace,
      List.isPrefixOf, List.filter, filepath.Match, filepath.matchLoop,
      filepath.matchChunk, filepath.scanChunk, filepath.scanChunkAux,
      filepath.starLoop, filepath.chunksOk, str]
  · decide

/-- C3 as amended: the artifact list of every successful run is sorted
lexicographically (byte-wise) ascending, and the contribution of each
single task is duplicate-free; however an artifact name produced by
several different packages appears once per producing package (see the
counterexample), because the per-package sets are concatenated without
a cross-package deduplication step. -/
theorem C3_sorted_output (cfg : Config) (project : Str) (packages : List Str)
    (runner : Str → Str → Except (Str × Str) Str) (order : List (Str × Str))
    (l : List Str)
    (h : ListArtifactsSched cfg project (Except.ok packages) runner order =
      Except.ok l) :
    l.Pairwise (fun a b => strLe a b = true) ∧
      ∀ e ∈ order, ∀ bins, taskOutcome runner e = Except.ok bins →
        bins.Nodup := by
  constructor
  · simp only [ListArtifactsSched] at h
    by_cases hemp :
        (filterPackages cfg.packageFilterPatterns packages).isEmpty = true
    · rw [if_pos hemp] at h
      simp only [Except.ok.injEq] at h
      rw [← h]
      simp
    · rw [if_neg hemp] at h
      by_cases herr :
          (errTexts (order.map (taskOutcome runner))).isEmpty = true
      · rw [if_pos herr] at h
        simp only [Except.ok.injEq] at h
        rw [← h]
        exact finalFilter_pairwise _ _
      · rw [if_neg herr] at h
        simp at h
  · intro e _ bins hbins
    cases hrun : runner e.1 e.2 with
    | error eo => simp [taskOutcome, listBinariesForPackage, hrun] at hbins
    | ok out =>
      simp only [taskOutcome, listBinariesForPackage, hrun,
        Except.ok.injEq] at hbins
      rw [← hbins]
      exact cleanBinaries_nodup out

/-- Witness for C3 as amended, at the concrete duplicate-producing
run. -/
theorem C3_sorted_output_witness :
    ([str "x", str "x"] : List Str).Pairwise (fun a b => strLe a b = true) ∧
      ∀ e ∈ [(str "a1", str "r"), (str "a2", str "r")], ∀ bins,
        taskOutcome runnerDup e = Except.ok bins → bins.Nodup := by
  have h : ListArtifactsSched cfgDup (str "P")
      (Except.ok [str "a1", str "a2"]) runnerDup
      [(str "a1", str "r"), (str "a2", str "r")] =
      Except.ok [str "x", str "x"] := by
    simp [ListArtifactsSched, cfgDup, runnerDup, filterPackages, findRepo,
      insertAssoc, taskOutcome, listBinariesForPackage, cleanBinaries,
      splitOnNl, keepLine, insertSet, trimSpace, goIsSpace, errTexts, okLists,
      finalFilter, matchAnyBinary, sortStrings, insertSorted, strLe, joinSpace,
      List.isPrefixOf, List.filter, filepath.Match, filepath.matchLoop,
      filepath.matchChunk, filepath.scanChunk, filepath.scanChunkAux,
      filepath.starLoop, filepath.chunksOk, str]
  exact C3_sorted_output cfgDup (str "P") [str "a1", str "a2"] runnerDup
    [(str "a1", str "r"), (str "a2", str "r")] [str "x", str "x"] h

/-- C4: the sorted output of a successful run is unique: two successful
runs whose task completion orders are permutations of one another
return identical lists.  Any concurrency limit at least 1, including
the fully sequential limit, only changes the completion order, so every
such limit produces byte-identical output, and repeated runs on fixed
inputs do as well. -/
theorem C4_schedule_invariance (cfg : Config) (project : Str)
    (pkgsResult : Except Str (List Str))
    (runner : Str → Str → Except (Str × Str) Str)
    (o1 o2 : List (Str × Str)) (hperm : o1.Perm o2) (l1 l2 : List Str)
    (h1 : ListArtifactsSched cfg project pkgsResult runner o1 = Except.ok l1)
    (h2 : ListArtifactsSched cfg project pkgsResult runner o2 = Except.ok l2) :
    l1 = l2 := by
  cases pkgsResult with
  | error e => simp [ListArtifactsSched] at h1
  | ok packages =>
    simp only [ListArtifactsSched] at h1 h2
    by_cases hemp :
        (filterPackages cfg.packageFilterPatterns packages).isEmpty = true
    · rw [if_pos hemp] at h1 h2
      simp only [Except.ok.injEq] at h1 h2
      rw [← h1, ← h2]
    · rw [if_neg hemp] at h1 h2
      have hout : (o1.map (taskOutcome runner)).Perm
          (o2.map (taskOutcome runner)) := hperm.map _
      have herr : (errTexts (o1.map (taskOutcome runner))).Perm
          (errTexts (o2.map (taskOutcome runner))) := hout.filterMap _
      by_cases he1 : (errTexts (o1.map (taskOutcome runner))).isEmpty = true
      · have he2 : (errTexts (o2.map (taskOutcome runner))).isEmpty = true := by
          rw [List.isEmpty_iff] at he1 ⊢
          rw [he1] at herr
          exact herr.symm.eq_nil
        rw [if_pos he1] at h1
        rw [if_pos he2] at h2
        have hok : (okLists (o1.map (taskOutcome runner))).Perm
            (okLists (o2.map (taskOutcome runner))) := hout.filterMap _
        have hflat : ((okLists (o1.map (taskOutcome runner))).flatten).Perm
            ((okLists (o2.map (taskOutcome runner))).flatten) := hok.flatten
        have hfin : finalFilter cfg.binaryFilterPatterns
            (okLists (o1.map (taskOutcome runner))).flatten =
              finalFilter cfg.binaryFilterPatterns
                (okLists (o2.map (taskOutcome runner))).flatten := by
          rw [finalFilter, finalFilter]
          split
          · exact sortStrings_eq_of_perm hflat
          · exact sortStrings_eq_of_perm (hflat.filter _)
        rw [hfin] at h1
        simp only [Except.ok.injEq] at h1 h2
        rw [← h1, ← h2]
      · rw [if_neg he1] at h1
        simp at h1

/-- Witness for C4: the two completion orders of the concrete
two-package run give the same result. -/
theorem C4_schedule_invariance_witness :
    ListArtifactsSched cfgDup (str "P") (Except.ok [str "a1", str "a2"])
        runnerDup [(str "a1", str "r"), (str "a2", str "r")] =
      ListArtifactsSched cfgDup (str "P") (Except.ok [str "a1", str "a2"])
        runnerDup [(str "a2", str "r"), (str "a1", str "r")] := by
  have h1 : ListArtifactsSched cfgDup (str "P")
      (Except.ok [str "a1", str "a2"]) runnerDup
      [(str "a1", str "r"), (str "a2", str "r")] =
      Except.ok [str "x", str "x"] := by
    simp [ListArtifactsSched, cfgDup, runnerDup, filterPackages, findRepo,
      insertAssoc, taskOutcome, listBinariesForPackage, cleanBinaries,
      splitOnNl, keepLine, insertSet, trimSpace, goIsSpace, errTexts, okLists,
      finalFilter, matchAnyBinary, sortStrings, insertSorted, strLe, joinSpace,
      List.isPrefixOf, List.filter, filepath.Match, filepath.matchLoop,
      filepath.matchChunk, filepath.scanChunk, filepath.scanChunkAux,
      filepath.starLoop, filepath.chunksOk, str]
  have h2 : ListArtifactsSched cfgDup (str "P")
      (Except.ok [str "a1", str "a2"]) runnerDup
      [(str "a2", str "r"), (str "a1", str "r")] =
      Except.ok [str "x", str "x"] := by
    simp [ListArtifactsSched, cfgDup, runnerDup, filterPackages, findRepo,
      insertAssoc, taskOutcome, listBinariesForPackage, cleanBinaries,
      splitOnNl, keepLine, insertSet, trimSpace, goIsSpace, errTexts, okLists,
      finalFilter, matchAnyBinary, sortStrings, insertSorted, strLe, joinSpace,
      List.isPrefixOf, List.filter, filepath.Match, filepath.matchLoop,
      filepath.matchChunk, filepath.scanChunk, filepath.scanChunkAux,
      filepath.starLoop, filepath.chunksOk, str]
  exact h1.trans
    ((congrArg Except.ok
      (C4_schedule_invariance cfgDup (str "P")
        (Except.ok [str "a1", str "a2"]) runnerDup
        [(str "a1", str "r"), (str "a2", str "r")]
        [(str "a2", str "r"), (str "a1", str "r")] (by decide)
        [str "x", str "x"] [str "x", str "x"] h1 h2)).trans h2.symm)

/-- Configuration of the C9 end-to-end scenario: one filter rule
mapping 000product:-prefixed packages to repo1, final binary pattern
list restricted to iso files. -/
def cfg9 : Config :=
  { packageFilterPatterns :=
      [{ pattern := str "000product:*", repository := str "repo1" }],
    binaryFilterPatterns := [str "*.iso"] }

/-- Runner of the C9 scenario: for package 000product:sles in repo1 the
osc output lists the binaries x.iso and x.json; any other request
fails. -/
def runner9 : Str → Str → Except (Str × Str) Str := fun pkg repo =>
  if pkg = str "000product:sles" ∧ repo = str "repo1" then
    Except.ok (str " x.iso\n x.json")
  else Except.error (str "unexpected", str "")

/-- C9: the end-to-end scenario — project P, packages 000product:sles
and other, rule 000product:* → repo1, binary lister yielding x.iso and
x.json for 000product:sles in repo1, final binary pattern *.iso —
returns exactly the list with x.iso and no error. -/
theorem C9_end_to_end :
    ListArtifacts cfg9 (str "P")
      (Except.ok [str "000product:sles", str "other"]) runner9 =
      Except.ok [str "x.iso"] := by
  simp [ListArtifacts, ListArtifactsSched, cfg9, runner9, filterPackages,
    findRepo, insertAssoc, taskOutcome, listBinariesForPackage, cleanBinaries,
    splitOnNl, keepLine, insertSet, trimSpace, goIsSpace, errTexts, okLists,
    finalFilter, matchAnyBinary, sortStrings, insertSorted, strLe, joinSpace,
    List.isPrefixOf, List.filter, filepath.Match, filepath.matchLoop,
    filepath.matchChunk, filepath.scanChunk, filepath.scanChunkAux,
    filepath.starLoop, filepath.chunksOk, str]

end Relx
